import Mathlib

/-!
Verification of the feed-reconciliation pipeline in `src/build.py`
(price-compare). The pipeline is embedded shallowly:

* strings are `String` (lists of Unicode scalar values, as in Python 3);
* decimal amounts are exact rationals `ℚ` — the Python code stores them in
  binary floating point, but every amount the claims touch is compared,
  added, or tested for sign, operations on which the exact-rational reading
  and the float reading agree for feed-sized decimal literals;
* the per-row timestamp default `datetime.utcnow().isoformat()+"Z"` is an
  injected value `now : String`;
* `json.loads` (Python standard library, not repository code) is a
  parameter `loads : String → Option V` together with the empty-object
  value `emptySpecs : V`: `none` models a raised `json.JSONDecodeError`,
  `some v` models a successful parse returning `v`.
-/

/-- Decimal digit, by code point (`0`–`9`). -/
def isDigitB (c : Char) : Bool := 48 ≤ c.toNat && c.toNat ≤ 57

/-- ASCII whitespace as stripped by Python `str.strip()`:
space, tab, newline, vertical tab, form feed, carriage return. -/
def isSpaceB (c : Char) : Bool :=
  c.toNat == 32 || c.toNat == 9 || c.toNat == 10 || c.toNat == 11 ||
  c.toNat == 12 || c.toNat == 13

/-- The hyphen-minus character, the only character `slugify` strips at the
ends (`.strip('-')`). -/
def isDashB (c : Char) : Bool := c == '-'

/-- Characters the slug alphabet keeps: the regex class `[a-z0-9-]`
of `re.sub(r'[^a-z0-9\-]+', '-', ...)` in `slugify`. -/
def allowedChar (c : Char) : Bool :=
  (97 ≤ c.toNat && c.toNat ≤ 122) || (48 ≤ c.toNat && c.toNat ≤ 57) ||
  (c.toNat == 45)

/-- Python `str.lower` restricted to the ASCII and Latin-1 ranges (uppercase
`A`–`Z` and `À`–`Þ` except `×` map down by 32); every character of the
spec's examples falls in these ranges, and characters left unchanged here
are outside `[a-z0-9-]` and are stripped by the slug filter regardless. -/
def pyLower (c : Char) : Char :=
  if 65 ≤ c.toNat ∧ c.toNat ≤ 90 then Char.ofNat (c.toNat + 32)
  else if 192 ≤ c.toNat ∧ c.toNat ≤ 222 ∧ c.toNat ≠ 215 then Char.ofNat (c.toNat + 32)
  else c

/-- Remove the longest trailing run of characters satisfying `p`
(the trailing half of Python `str.strip`). -/
def dropTrail (p : Char → Bool) : List Char → List Char
  | [] => []
  | c :: cs =>
    let r := dropTrail p cs
    if r = [] ∧ p c = true then [] else c :: r

/-- Python `str.strip()` on a character list: drop leading and trailing
whitespace. -/
def pyStripL (l : List Char) : List Char :=
  dropTrail isSpaceB (l.dropWhile isSpaceB)

/-- Python `str.strip()` on a `String`. -/
def pyStripStr (s : String) : String := String.mk (pyStripL s.data)

/-- The run replacement of `re.sub(r'[^a-z0-9\-]+', '-', text)`: each maximal
run of characters outside `[a-z0-9-]` becomes a single `-`. The Boolean
argument records whether the scanner is inside a disallowed run whose `-`
has already been emitted. -/
def subRunsAux : Bool → List Char → List Char
  | _, [] => []
  | inRun, c :: cs =>
    if allowedChar c = true then c :: subRunsAux false cs
    else if inRun then subRunsAux true cs
    else '-' :: subRunsAux true cs

/-- The collapse of `re.sub(r'-+', '-', text)`: each run of hyphens becomes
a single hyphen. The Boolean argument records whether the previously
emitted character was a hyphen. -/
def collapseAux : Bool → List Char → List Char
  | _, [] => []
  | lastDash, c :: cs =>
    if c = '-' then
      (if lastDash then collapseAux true cs else '-' :: collapseAux true cs)
    else c :: collapseAux false cs

/-- The `.strip('-')` step of `slugify`. -/
def stripDashes (l : List Char) : List Char :=
  dropTrail isDashB (l.dropWhile isDashB)

/-- `slugify` from `src/build.py` on a character list: lowercase, map
spaces to hyphens, replace runs of characters outside `[a-z0-9-]` by one
hyphen, collapse hyphen runs, strip hyphens at the ends, and fall back to
the fixed token when the result is empty. -/
def slugifyL (l : List Char) : List Char :=
  let lowered := l.map pyLower
  let dashed := lowered.map (fun c => if c = ' ' then '-' else c)
  let subbed := subRunsAux false dashed
  let collapsed := collapseAux false subbed
  let stripped := stripDashes collapsed
  if stripped = [] then "product".data else stripped

/-- `slugify` from `src/build.py`. -/
def slugify (s : String) : String := String.mk (slugifyL s.data)

/-- Value of a digit string, most significant first. -/
def digitsToNat (l : List Char) : Nat :=
  l.foldl (fun a c => 10 * a + (c.toNat - 48)) 0

/-- Unsigned decimal literal accepted by Python `float`: digits with an
optional dot and fraction digits, at least one digit overall (exponent
forms, `inf` and `nan` are not used by any feed value considered here).
A literal with integer part `ds` and fraction part `fs` denotes the exact
rational `(ds * 10 ^ |fs| + fs) / 10 ^ |fs|`, built with `mkRat`. -/
def parseDec? (l : List Char) : Option ℚ :=
  let ds := l.takeWhile isDigitB
  let rest := l.dropWhile isDigitB
  match rest with
  | [] => if ds = [] then none else some (mkRat (digitsToNat ds) 1)
  | '.' :: fs =>
    if fs.all isDigitB = true ∧ (ds ≠ [] ∨ fs ≠ []) then
      some (mkRat (digitsToNat ds * 10 ^ fs.length + digitsToNat fs) (10 ^ fs.length))
    else none
  | _ => none

/-- The fallible core of `to_float`: `float(str(x).replace(",", ".").strip())`
— every comma becomes a dot, the text is stripped, then parsed as an
optionally signed decimal literal; `none` models a raised `ValueError`. -/
def toFloatCore? (x : String) : Option ℚ :=
  match pyStripL (x.data.map (fun c => if c = ',' then '.' else c)) with
  | '-' :: r => (parseDec? r).map (fun q => -q)
  | '+' :: r => parseDec? r
  | r => parseDec? r

/-- `to_float` from `src/build.py`: the fallible conversion with the
`except: return 0.0` fallback. -/
def to_float (x : String) : ℚ := (toFloatCore? x).getD 0

/-- No two adjacent hyphens: the shape `re.sub(r'-+', '-', ...)` leaves
behind. -/
def noDD : List Char → Bool
  | [] => true
  | [_] => true
  | a :: b :: t => !(a == '-' && b == '-') && noDD (b :: t)

structure RawRow where
  category : String := ""
  product_slug : String := ""
  product_name : String := ""
  brand : String := ""
  model : String := ""
  gtin : String := ""
  mpn : String := ""
  specs_json : String := ""
  merchant : String := ""
  price : String := ""
  currency : String := ""
  shipping : String := ""
  url : String := ""
  availability : String := ""
  updated_at : String := ""
deriving DecidableEq

/-- A validated `OfferRecord` (the `item` dict built by `normalize_rows`),
fields in the order the dict literal writes them. -/
structure OfferRecord where
  category : String
  product_slug : String
  product_name : String
  brand : String
  model : String
  gtin : String
  mpn : String
  specs_json : String
  merchant : String
  price : ℚ
  currency : String
  shipping : ℚ
  url : String
  availability : String
  updated_at : String
deriving DecidableEq

/-- The Identity Resolver: the `product_slug` expression of `normalize_rows`:
`r.get("product_slug","").strip() or slugify((r.get("brand","")+" "+r.get("model","")).strip() or r.get("product_name",""))`. -/
def identitySlug (r : RawRow) : String :=
  let ex := pyStripStr r.product_slug
  if ex ≠ "" then ex
  else
    let bm := pyStripStr (r.brand ++ " " ++ r.model)
    slugify (if bm ≠ "" then bm else r.product_name)

/-- The `item` dict one iteration of `normalize_rows` builds from a raw row.
`now` is the injected value of `datetime.utcnow().isoformat()+"Z"`. -/
def mkItem (now : String) (r : RawRow) : OfferRecord :=
  { category := pyStripStr r.category
    product_slug := identitySlug r
    product_name :=
      (let pn := pyStripStr r.product_name
       if pn ≠ "" then pn else pyStripStr (r.brand ++ " " ++ r.model))
    brand := pyStripStr r.brand
    model := pyStripStr r.model
    gtin := pyStripStr r.gtin
    mpn := pyStripStr r.mpn
    specs_json := pyStripStr r.specs_json
    merchant := pyStripStr r.merchant
    price := to_float r.price
    currency := if r.currency = "" then "RUB" else pyStripStr r.currency
    shipping := to_float r.shipping
    url := pyStripStr r.url
    availability := pyStripStr r.availability
    updated_at := (let u := pyStripStr r.updated_at; if u ≠ "" then u else now) }

/-- The acceptance test of `normalize_rows`:
`item["product_slug"] and item["merchant"] and item["price"]>0 and item["url"]`. -/
def keepB (it : OfferRecord) : Bool :=
  (it.product_slug != "") && (it.merchant != "") &&
  decide (0 < it.price) && (it.url != "")

/-- One iteration of the `normalize_rows` loop: build the item, append it to
the accumulator when the acceptance test passes. -/
def normStep (now : String) (acc : List OfferRecord) (r : RawRow) : List OfferRecord :=
  let it := mkItem now r
  if keepB it then acc ++ [it] else acc

/-- `normalize_rows` from `src/build.py`. -/
def normalize_rows (now : String) (rows : List RawRow) : List OfferRecord :=
  rows.foldl (normStep now) []

/-- One merchant offer as `group_by_product` builds it, fields in dict
order; `total` is the derived `price + shipping`. -/
structure Offer where
  merchant : String
  availability : String
  price : ℚ
  shipping : ℚ
  currency : String
  url : String
  total : ℚ
  updated_at : String
deriving DecidableEq

/-- One catalog product, fields in the order of the dict `group_by_product`
creates on first sight of a slug. `V` is the type of parsed spec data
returned by the `json.loads` model. -/
structure Product (V : Type) where
  slug : String
  category : String
  name : String
  brand : String
  model : String
  gtin : String
  mpn : String
  specs : V
deriving DecidableEq

/-- The offer dict appended for every record. -/
def mkOffer (r : OfferRecord) : Offer :=
  { merchant := r.merchant
    availability := r.availability
    price := r.price
    shipping := r.shipping
    currency := r.currency
    url := r.url
    total := r.price + r.shipping
    updated_at := r.updated_at }

/-- The product dict created the first time a slug is seen.
`emptySpecs` is the empty mapping; `loads` models `json.loads`, with `none`
a parse failure, so `specs` is
`try: json.loads(r.get("specs_json") or "{}") except: {}`. -/
def mkProduct {V : Type} (emptySpecs : V) (loads : String → Option V)
    (r : OfferRecord) : Product V :=
  { slug := r.product_slug
    category := r.category
    name := r.product_name
    brand := r.brand
    model := r.model
    gtin := r.gtin
    mpn := r.mpn
    specs := if r.specs_json = "" then emptySpecs
             else (loads r.specs_json).getD emptySpecs }

/-- Lookup in an insertion-ordered association list, modelling Python dict
indexing (keys are never inserted twice, so first match is the entry). -/
def alookup {α : Type} : List (String × α) → String → Option α
  | [], _ => none
  | (k, v) :: t, s => if k = s then some v else alookup t s

/-- `offers[slug].append(o)` on the insertion-ordered `defaultdict(list)`:
extend the slug's entry, creating it at the end on first touch. -/
def addOffer (m : List (String × List Offer)) (slug : String) (o : Offer) :
    List (String × List Offer) :=
  match m with
  | [] => [(slug, [o])]
  | (k, os) :: t =>
    if k = slug then (k, os ++ [o]) :: t else (k, os) :: addOffer t slug o

/-- One iteration of the `group_by_product` loop: create the product if the
slug is new, then append the row's offer. -/
def step {V : Type} (emptySpecs : V) (loads : String → Option V)
    (st : List (String × Product V) × List (String × List Offer))
    (r : OfferRecord) :
    List (String × Product V) × List (String × List Offer) :=
  ( if (alookup st.1 r.product_slug).isSome then st.1
    else st.1 ++ [(r.product_slug, mkProduct emptySpecs loads r)],
    addOffer st.2 r.product_slug (mkOffer r) )

/-- `group_by_product` from `src/build.py` (the Reconciliation Engine
`reconcile`): returns the pair (products, offers), both insertion-ordered
maps keyed by product slug. -/
def group_by_product {V : Type} (emptySpecs : V) (loads : String → Option V)
    (rs : List OfferRecord) :
    List (String × Product V) × List (String × List Offer) :=
  rs.foldl (step emptySpecs loads) ([], [])

/-- Python `min(offs, key=lambda o: o["total"])` over `o :: t`: keep the
current minimum, replacing it only on a strictly smaller total, so the
earliest minimal offer wins ties. -/
def min_offer (o : Offer) (t : List Offer) : Offer :=
  t.foldl (fun m x => if x.total < m.total then x else m) o

/-- Python `max(o["total"] for o in offs)` over `q :: ts`: keep the current
maximum, replacing it only on a strictly larger total. -/
def maxTotal (q : ℚ) (ts : List ℚ) : ℚ :=
  ts.foldl (fun m x => if m < x then x else m) q

/-- The Aggregator's result record (spec §4.5). -/
structure Aggregate where
  cheapestOffer : Offer
  lowTotal : ℚ
  highTotal : ℚ
  offerCount : Nat
deriving DecidableEq

/-- The Aggregator: `aggregate(product, offers)` of spec §4.5 as the code
computes it — `render_index` takes `min(offs, key=lambda o: o["total"])` and
its `total`; `render_product` takes the head of the stable sort by `total`
(the same earliest-minimal offer), `max(o["total"] for o in offs_sorted)`
and `len(offs_sorted)`. `none` on an empty offer list models the
`EmptyOfferSet` failure (Python `min`/`max` raise on empty input). -/
def aggregate (os : List Offer) : Option Aggregate :=
  match os with
  | [] => none
  | o :: t =>
    some { cheapestOffer := min_offer o t
           lowTotal := (min_offer o t).total
           highTotal := maxTotal o.total (t.map Offer.total)
           offerCount := (o :: t).length }

/-- A `json.loads` model for runs whose spec payloads are all empty or
unparseable: every payload fails to parse (the witness rows below carry no
parseable spec payload). -/
def loadsNone : String → Option (List (String × String)) := fun _ => none

/-- Parsed spec data distinguishing a JSON object (a key→value mapping)
from a JSON array: the two `json.loads` outcomes the C7 analysis needs. -/
inductive SpecData where
  | obj : List (String × String) → SpecData
  | arr : List Nat → SpecData
deriving DecidableEq

/-- Models `json.loads` on the payloads used with it in this file: the JSON
text `[1, 2]` parses successfully to the array `[1, 2]` (valid JSON, not a
key→value mapping — `json.loads` accepts any JSON value, not only objects);
every other payload used with this model raises and maps to `none`. -/
def loadsArr : String → Option SpecData :=
  fun s => if s = "[1, 2]" then some (SpecData.arr [1, 2]) else none

/-- Following the words of claim C1 (spec §4.2): explicit slug verbatim
after trimming; else `slugify(brand + " " + model)` when BOTH brand and
model are present; else `slugify(productName)`; else the fixed fallback
token. This is the spec-side reading, to be compared with `identitySlug`
from the source. -/
def specSlugC1 (r : RawRow) : String :=
  if pyStripStr r.product_slug ≠ "" then pyStripStr r.product_slug
  else if pyStripStr r.brand ≠ "" ∧ pyStripStr r.model ≠ "" then
    slugify (r.brand ++ " " ++ r.model)
  else if r.product_name ≠ "" then slugify r.product_name
  else "product"

/-- A row with a brand but no model and no explicit slug: the two slug
readings disagree here. -/
def rowBrandOnly : RawRow := { brand := "Bosch", product_name := "Drill" }

/-- A row whose only identity field is an explicit (untrimmed) slug. -/
def rowExplicitSlug : RawRow :=
  { product_slug := " abc ", merchant := "m", url := "u", price := "10" }

/-- A row with a merchant and a price but no url. -/
def rowNoUrl : RawRow := { merchant := "shop", price := "10" }

/-- A complete row whose shipping text parses to a negative number. -/
def rowNegShip : RawRow :=
  { product_name := "Widget", merchant := "m", url := "u", price := "10",
    shipping := "-5" }

/-- A complete row whose price and shipping texts are not numeric. -/
def rowBadPrice : RawRow :=
  { product_name := "Widget", merchant := "m", url := "u", price := "abc",
    shipping := "x2" }

/-- A complete row whose spec payload is valid JSON but an array. -/
def rowSpecArr : RawRow :=
  { product_name := "Widget", merchant := "m", url := "u", price := "10",
    specs_json := "[1, 2]" }

/-- A complete row whose spec payload fails to parse as JSON. -/
def rowSpecBad : RawRow :=
  { product_name := "Widget", merchant := "m", url := "u", price := "10",
    specs_json := "oops" }

/-- A complete row with an explicit slug, for the catalog witnesses. -/
def rowS1 : RawRow :=
  { product_slug := "s1", merchant := "m", url := "u", price := "10" }

/-- Offer with total 120.50 (= `mkRat 241 2` exactly). -/
def offerA : Offer :=
  { merchant := "m1", availability := "", price := mkRat 241 2, shipping := 0,
    currency := "RUB", url := "u1", total := mkRat 241 2, updated_at := "t1" }

/-- Offer with total 99.99 (= `mkRat 9999 100` exactly); the first of the
two tied cheapest offers. -/
def offerB : Offer :=
  { merchant := "m2", availability := "", price := mkRat 9999 100, shipping := 0,
    currency := "RUB", url := "u2", total := mkRat 9999 100, updated_at := "t2" }

/-- Offer with total 99.99 again (price 90 plus shipping 9.99). -/
def offerC : Offer :=
  { merchant := "m3", availability := "", price := mkRat 90 1,
    shipping := mkRat 999 100, currency := "RUB", url := "u3",
    total := mkRat 9999 100, updated_at := "t3" }

theorem subRunsAux_cons_allowed (b : Bool) (a : Char) (t : List Char)
    (ha : allowedChar a = true) :
    subRunsAux b (a :: t) = a :: subRunsAux false t := by
  cases b <;> simp [subRunsAux, ha]

theorem subRunsAux_cons_dis_true (a : Char) (t : List Char)
    (ha : ¬ allowedChar a = true) :
    subRunsAux true (a :: t) = subRunsAux true t := by
  simp [subRunsAux, ha]

theorem subRunsAux_cons_dis_false (a : Char) (t : List Char)
    (ha : ¬ allowedChar a = true) :
    subRunsAux false (a :: t) = '-' :: subRunsAux true t := by
  simp [subRunsAux, ha]

theorem collapseAux_cons_dash_true (t : List Char) :
    collapseAux true ('-' :: t) = collapseAux true t := by
  simp [collapseAux]

theorem collapseAux_cons_dash_false (t : List Char) :
    collapseAux false ('-' :: t) = '-' :: collapseAux true t := by
  simp [collapseAux]

theorem collapseAux_cons_ne (b : Bool) (a : Char) (t : List Char)
    (ha : a ≠ '-') :
    collapseAux b (a :: t) = a :: collapseAux false t := by
  cases b <;> simp [collapseAux, ha]

theorem dropTrail_cons_pos (p : Char → Bool) (a : Char) (t : List Char)
    (h : dropTrail p t = [] ∧ p a = true) :
    dropTrail p (a :: t) = [] := by
  simp only [dropTrail]
  rw [if_pos h]

theorem dropTrail_cons_neg (p : Char → Bool) (a : Char) (t : List Char)
    (h : ¬ (dropTrail p t = [] ∧ p a = true)) :
    dropTrail p (a :: t) = a :: dropTrail p t := by
  simp only [dropTrail]
  rw [if_neg h]

theorem subRunsAux_allowed : ∀ (l : List Char) (b : Bool),
    ∀ c ∈ subRunsAux b l, allowedChar c = true := by
  intro l
  induction l with
  | nil => intro b c hc; simp [subRunsAux] at hc
  | cons a t ih =>
    intro b c hc
    by_cases ha : allowedChar a = true
    · rw [subRunsAux_cons_allowed b a t ha] at hc
      rcases List.mem_cons.mp hc with h | h
      · exact h ▸ ha
      · exact ih false c h
    · cases b with
      | true =>
        rw [subRunsAux_cons_dis_true a t ha] at hc
        exact ih true c hc
      | false =>
        rw [subRunsAux_cons_dis_false a t ha] at hc
        rcases List.mem_cons.mp hc with h | h
        · subst h; decide
        · exact ih true c h

theorem subRunsAux_id : ∀ (l : List Char) (b : Bool),
    (∀ c ∈ l, allowedChar c = true) → subRunsAux b l = l := by
  intro l
  induction l with
  | nil => intro b _; rfl
  | cons a t ih =>
    intro b h
    have ha : allowedChar a = true := h a (List.mem_cons_self a t)
    rw [subRunsAux_cons_allowed b a t ha,
      ih false (fun c hc => h c (List.mem_cons_of_mem a hc))]

theorem collapseAux_subset : ∀ (l : List Char) (b : Bool),
    ∀ c ∈ collapseAux b l, c ∈ l := by
  intro l
  induction l with
  | nil => intro b c hc; simp [collapseAux] at hc
  | cons a t ih =>
    intro b c hc
    by_cases ha : a = '-'
    · subst ha
      cases b with
      | true =>
        rw [collapseAux_cons_dash_true] at hc
        exact List.mem_cons_of_mem _ (ih true c hc)
      | false =>
        rw [collapseAux_cons_dash_false] at hc
        rcases List.mem_cons.mp hc with h | h
        · exact h ▸ List.mem_cons_self _ _
        · exact List.mem_cons_of_mem _ (ih true c h)
    · rw [collapseAux_cons_ne b a t ha] at hc
      rcases List.mem_cons.mp hc with h | h
      · exact h ▸ List.mem_cons_self _ _
      · exact List.mem_cons_of_mem _ (ih false c h)

theorem collapseAux_true_head : ∀ l : List Char,
    (collapseAux true l).head? ≠ some '-' := by
  intro l
  induction l with
  | nil => simp [collapseAux]
  | cons a t ih =>
    by_cases ha : a = '-'
    · subst ha; rw [collapseAux_cons_dash_true]; exact ih
    · rw [collapseAux_cons_ne true a t ha]
      simp [ha]

theorem noDD_tail : ∀ (a : Char) (l : List Char),
    noDD (a :: l) = true → noDD l = true := by
  intro a l h
  cases l with
  | nil => rfl
  | cons b t =>
    simp only [noDD, Bool.and_eq_true] at h
    exact h.2

theorem noDD_head : ∀ (a : Char) (l : List Char),
    noDD (a :: l) = true → a = '-' → l.head? ≠ some '-' := by
  intro a l h ha hb
  cases l with
  | nil => simp at hb
  | cons b t =>
    simp only [List.head?_cons, Option.some.injEq] at hb
    subst ha
    subst hb
    simp [noDD] at h

theorem noDD_cons : ∀ (a : Char) (l : List Char), noDD l = true →
    (a = '-' → l.head? ≠ some '-') → noDD (a :: l) = true := by
  intro a l hl hh
  cases l with
  | nil => rfl
  | cons b t =>
    by_cases ha : a = '-'
    · have hb : b ≠ '-' := fun hb => hh ha (by simp [hb])
      have hbb : (b == '-') = false := beq_eq_false_iff_ne.mpr hb
      simp [noDD, hbb, hl]
    · have haa : (a == '-') = false := beq_eq_false_iff_ne.mpr ha
      simp [noDD, haa, hl]

theorem collapseAux_noDD : ∀ (l : List Char) (b : Bool),
    noDD (collapseAux b l) = true := by
  intro l
  induction l with
  | nil => intro b; rfl
  | cons a t ih =>
    intro b
    by_cases ha : a = '-'
    · subst ha
      cases b with
      | true => rw [collapseAux_cons_dash_true]; exact ih true
      | false =>
        rw [collapseAux_cons_dash_false]
        exact noDD_cons _ _ (ih true) (fun _ => collapseAux_true_head t)
    · rw [collapseAux_cons_ne b a t ha]
      exact noDD_cons _ _ (ih false) (fun h => absurd h ha)

theorem collapseAux_true_eq : ∀ l : List Char,
    l.head? ≠ some '-' → collapseAux true l = collapseAux false l := by
  intro l h
  cases l with
  | nil => rfl
  | cons a t =>
    have ha : a ≠ '-' := fun hc => h (by simp [hc])
    rw [collapseAux_cons_ne true a t ha, collapseAux_cons_ne false a t ha]

theorem collapseAux_id : ∀ l : List Char,
    noDD l = true → collapseAux false l = l := by
  intro l
  induction l with
  | nil => intro _; rfl
  | cons a t ih =>
    intro h
    have ht := noDD_tail a t h
    by_cases ha : a = '-'
    · subst ha
      rw [collapseAux_cons_dash_false,
        collapseAux_true_eq t (noDD_head _ _ h rfl), ih ht]
    · rw [collapseAux_cons_ne false a t ha, ih ht]

theorem dropWhile_head : ∀ (p : Char → Bool) (l : List Char) (c : Char),
    (l.dropWhile p).head? = some c → p c = false := by
  intro p l
  induction l with
  | nil => intro c hc; simp [List.dropWhile_nil] at hc
  | cons a t ih =>
    intro c hc
    cases hpa : p a with
    | true => exact ih c (by rwa [List.dropWhile_cons, if_pos hpa] at hc)
    | false =>
      rw [List.dropWhile_cons, if_neg (by simp [hpa])] at hc
      simp only [List.head?_cons, Option.some.injEq] at hc
      exact hc ▸ hpa

theorem dropWhile_subset : ∀ (p : Char → Bool) (l : List Char) (c : Char),
    c ∈ l.dropWhile p → c ∈ l := by
  intro p l
  induction l with
  | nil => intro c hc; simp [List.dropWhile_nil] at hc
  | cons a t ih =>
    intro c hc
    cases hpa : p a with
    | true =>
      rw [List.dropWhile_cons, if_pos hpa] at hc
      exact List.mem_cons_of_mem a (ih c hc)
    | false =>
      rwa [List.dropWhile_cons, if_neg (by simp [hpa])] at hc

theorem dropWhile_noDD : ∀ (p : Char → Bool) (l : List Char),
    noDD l = true → noDD (l.dropWhile p) = true := by
  intro p l
  induction l with
  | nil => intro _; rfl
  | cons a t ih =>
    intro h
    cases hpa : p a with
    | true =>
      rw [List.dropWhile_cons, if_pos hpa]
      exact ih (noDD_tail a t h)
    | false =>
      rwa [List.dropWhile_cons, if_neg (by simp [hpa])]

theorem dropWhile_id : ∀ (p : Char → Bool) (l : List Char),
    (∀ c, l.head? = some c → p c = false) → l.dropWhile p = l := by
  intro p l h
  cases l with
  | nil => rfl
  | cons a t =>
    rw [List.dropWhile_cons, if_neg (by simp [h a rfl])]

theorem dropTrail_subset : ∀ (p : Char → Bool) (l : List Char) (c : Char),
    c ∈ dropTrail p l → c ∈ l := by
  intro p l
  induction l with
  | nil => intro c hc; simp [dropTrail] at hc
  | cons a t ih =>
    intro c hc
    by_cases hcnd : dropTrail p t = [] ∧ p a = true
    · rw [dropTrail_cons_pos p a t hcnd] at hc
      simp at hc
    · rw [dropTrail_cons_neg p a t hcnd] at hc
      rcases List.mem_cons.mp hc with h | h
      · exact h ▸ List.mem_cons_self _ _
      · exact List.mem_cons_of_mem a (ih c h)

theorem dropTrail_head : ∀ (p : Char → Bool) (l : List Char),
    dropTrail p l = [] ∨ (dropTrail p l).head? = l.head? := by
  intro p l
  cases l with
  | nil => exact Or.inl rfl
  | cons a t =>
    by_cases hcnd : dropTrail p t = [] ∧ p a = true
    · exact Or.inl (dropTrail_cons_pos p a t hcnd)
    · rw [dropTrail_cons_neg p a t hcnd]
      exact Or.inr rfl

theorem dropTrail_noDD : ∀ (p : Char → Bool) (l : List Char),
    noDD l = true → noDD (dropTrail p l) = true := by
  intro p l
  induction l with
  | nil => intro _; rfl
  | cons a t ih =>
    intro h
    by_cases hcnd : dropTrail p t = [] ∧ p a = true
    · rw [dropTrail_cons_pos p a t hcnd]; rfl
    · rw [dropTrail_cons_neg p a t hcnd]
      refine noDD_cons _ _ (ih (noDD_tail a t h)) ?_
      intro ha hhd
      rcases dropTrail_head p t with hnil | hsame
      · rw [hnil] at hhd; simp at hhd
      · exact noDD_head a t h ha (hsame ▸ hhd)

theorem dropTrail_idem : ∀ (p : Char → Bool) (l : List Char),
    dropTrail p (dropTrail p l) = dropTrail p l := by
  intro p l
  induction l with
  | nil => rfl
  | cons a t ih =>
    by_cases hcnd : dropTrail p t = [] ∧ p a = true
    · rw [dropTrail_cons_pos p a t hcnd]; rfl
    · rw [dropTrail_cons_neg p a t hcnd,
        dropTrail_cons_neg p a (dropTrail p t) (by rw [ih]; exact hcnd), ih]

theorem pyLower_fix : ∀ c : Char, allowedChar c = true → pyLower c = c := by
  intro c h
  simp only [allowedChar, Bool.or_eq_true, Bool.and_eq_true,
    decide_eq_true_eq, beq_iff_eq] at h
  have h1 : ¬ (65 ≤ c.toNat ∧ c.toNat ≤ 90) := by omega
  have h2 : ¬ (192 ≤ c.toNat ∧ c.toNat ≤ 222 ∧ c.toNat ≠ 215) := by omega
  simp only [pyLower, if_neg h1, if_neg h2]

theorem spaceMap_fix : ∀ c : Char, allowedChar c = true →
    (if c = ' ' then '-' else c) = c := by
  intro c h
  have hc : c ≠ ' ' := fun hc => absurd (hc ▸ h) (by decide)
  rw [if_neg hc]

theorem map_fix : ∀ (f : Char → Char) (l : List Char),
    (∀ c ∈ l, f c = c) → l.map f = l := by
  intro f l h
  induction l with
  | nil => rfl
  | cons a t ih =>
    rw [List.map_cons, h a (List.mem_cons_self a t),
      ih (fun c hc => h c (List.mem_cons_of_mem a hc))]

theorem slugifyL_allowed : ∀ l : List Char,
    ∀ c ∈ slugifyL l, allowedChar c = true := by
  intro l c hc
  simp only [slugifyL, stripDashes] at hc
  split at hc
  · fin_cases hc <;> decide
  · exact subRunsAux_allowed _ _ c
      (collapseAux_subset _ _ c
        (dropWhile_subset _ _ c (dropTrail_subset _ _ c hc)))

theorem slugifyL_noDD : ∀ l : List Char, noDD (slugifyL l) = true := by
  intro l
  simp only [slugifyL, stripDashes]
  split
  · decide
  · exact dropTrail_noDD _ _ (dropWhile_noDD _ _ (collapseAux_noDD _ _))

theorem slugifyL_ne_nil : ∀ l : List Char, slugifyL l ≠ [] := by
  intro l
  simp only [slugifyL]
  split
  · decide
  · next h => exact h

theorem stripDashes_fix : ∀ l : List Char,
    stripDashes l ≠ [] → stripDashes (stripDashes l) = stripDashes l := by
  intro l hne
  unfold stripDashes at hne ⊢
  have hhead : ∀ c, (dropTrail isDashB (l.dropWhile isDashB)).head? = some c →
      isDashB c = false := by
    intro c hc
    rcases dropTrail_head isDashB (l.dropWhile isDashB) with hnil | hsame
    · exact absurd hnil hne
    · exact dropWhile_head isDashB l c (hsame ▸ hc)
  rw [dropWhile_id isDashB (dropTrail isDashB (l.dropWhile isDashB)) hhead,
    dropTrail_idem]

theorem slugifyL_stripped : ∀ l : List Char,
    stripDashes (slugifyL l) = slugifyL l := by
  intro l
  simp only [slugifyL]
  split
  · decide
  · next hemp => exact stripDashes_fix _ hemp

theorem slugifyL_fix : ∀ y : List Char,
    (∀ c ∈ y, allowedChar c = true) → noDD y = true →
    stripDashes y = y → y ≠ [] → slugifyL y = y := by
  intro y hall hnodd hstrip hne
  simp only [slugifyL]
  rw [map_fix pyLower y (fun c hc => pyLower_fix c (hall c hc))]
  rw [map_fix (fun c => if c = ' ' then '-' else c) y
    (fun c hc => spaceMap_fix c (hall c hc))]
  rw [subRunsAux_id y false hall]
  rw [collapseAux_id y hnodd]
  rw [hstrip]
  rw [if_neg hne]

theorem slugifyL_idem : ∀ l : List Char,
    slugifyL (slugifyL l) = slugifyL l :=
  fun l => slugifyL_fix (slugifyL l) (slugifyL_allowed l) (slugifyL_noDD l)
    (slugifyL_stripped l) (slugifyL_ne_nil l)

theorem slugify_idem : ∀ s : String, slugify (slugify s) = slugify s := by
  intro s
  show String.mk (slugifyL (String.mk (slugifyL s.data)).data) = String.mk (slugifyL s.data)
  exact congrArg String.mk (slugifyL_idem s.data)

theorem foldl_normStep : ∀ (now : String) (rows : List RawRow) (acc : List OfferRecord),
    rows.foldl (normStep now) acc = acc ++ (rows.map (mkItem now)).filter keepB := by
  intro now rows
  induction rows with
  | nil => intro acc; simp
  | cons r t ih =>
    intro acc
    rw [List.foldl_cons, ih]
    simp only [List.map_cons, List.filter_cons]
    by_cases h : keepB (mkItem now r) = true
    · rw [if_pos h, show normStep now acc r = acc ++ [mkItem now r] from by simp [normStep, h]]
      simp [List.append_assoc]
    · rw [if_neg h, show normStep now acc r = acc from by simp [normStep, h]]

/-- `normalize_rows` keeps the accepted items, one per accepted row, in
input order: it is the order-preserving filter of the per-row items. -/
theorem normalize_rows_eq (now : String) (rows : List RawRow) :
    normalize_rows now rows = (rows.map (mkItem now)).filter keepB := by
  rw [normalize_rows, foldl_normStep, List.nil_append]

theorem alookup_append {α : Type} : ∀ (l1 l2 : List (String × α)) (s : String),
    alookup (l1 ++ l2) s =
      match alookup l1 s with
      | some v => some v
      | none => alookup l2 s := by
  intro l1 l2 s
  induction l1 with
  | nil => simp [alookup]
  | cons kv t ih =>
    obtain ⟨k, v⟩ := kv
    by_cases hk : k = s
    · simp [alookup, hk]
    · simp [alookup, hk, ih]

theorem alookup_addOffer : ∀ (m : List (String × List Offer)) (k : String)
    (o : Offer) (s : String),
    alookup (addOffer m k o) s =
      if k = s then some ((alookup m s).getD [] ++ [o]) else alookup m s := by
  intro m k o
  induction m with
  | nil =>
    intro s
    by_cases hk : k = s <;> simp [addOffer, alookup, hk]
  | cons kv t ih =>
    obtain ⟨a, os⟩ := kv
    intro s
    by_cases hak : a = k
    · subst hak
      rw [show addOffer ((a, os) :: t) a o = (a, os ++ [o]) :: t from by simp [addOffer]]
      by_cases has : a = s
      · subst has; simp [alookup]
      · simp [alookup, has]
    · rw [show addOffer ((a, os) :: t) k o = (a, os) :: addOffer t k o from by
        simp [addOffer, hak]]
      by_cases has : a = s
      · subst has
        have hks : ¬ (k = a) := fun h => hak h.symm
        simp [alookup, if_neg hks]
      · simp [alookup, has, ih s]

theorem foldl_step_products {V : Type} (e : V) (loads : String → Option V) :
    ∀ (rs : List OfferRecord)
    (st : List (String × Product V) × List (String × List Offer)) (s : String),
    alookup (rs.foldl (step e loads) st).1 s =
      match alookup st.1 s with
      | some v => some v
      | none => (rs.find? (fun r => decide (r.product_slug = s))).map (mkProduct e loads) := by
  intro rs
  induction rs with
  | nil =>
    intro st s
    rw [List.foldl_nil]
    cases alookup st.1 s <;> simp
  | cons r t ih =>
    intro st s
    rw [List.foldl_cons, ih]
    by_cases hrs : r.product_slug = s
    · subst hrs
      cases hst : alookup st.1 r.product_slug with
      | some v =>
        rw [show (step e loads st r).1 = st.1 from by simp [step, hst]]
        rw [hst]
      | none =>
        rw [show (step e loads st r).1
            = st.1 ++ [(r.product_slug, mkProduct e loads r)] from by
          simp [step, hst]]
        rw [alookup_append, hst]
        simp [alookup, List.find?_cons]
    · have hstep : alookup (step e loads st r).1 s = alookup st.1 s := by
        by_cases hpres : (alookup st.1 r.product_slug).isSome = true
        · rw [show (step e loads st r).1 = st.1 from by simp [step, hpres]]
        · rw [show (step e loads st r).1
              = st.1 ++ [(r.product_slug, mkProduct e loads r)] from by
            simp [step, Option.not_isSome_iff_eq_none.mp hpres]]
          rw [alookup_append]
          cases alookup st.1 s <;> simp [alookup, hrs]
      rw [hstep]
      cases alookup st.1 s <;> simp [List.find?_cons, hrs]

theorem foldl_step_offers {V : Type} (e : V) (loads : String → Option V) :
    ∀ (rs : List OfferRecord)
    (st : List (String × Product V) × List (String × List Offer)) (s : String),
    (alookup (rs.foldl (step e loads) st).2 s).getD [] =
      (alookup st.2 s).getD []
        ++ ((rs.filter (fun r => decide (r.product_slug = s))).map mkOffer) := by
  intro rs
  induction rs with
  | nil =>
    intro st s
    simp
  | cons r t ih =>
    intro st s
    rw [List.foldl_cons, ih]
    rw [show (step e loads st r).2 = addOffer st.2 r.product_slug (mkOffer r) from rfl]
    rw [alookup_addOffer]
    by_cases hrs : r.product_slug = s
    · rw [if_pos hrs]
      simp [List.filter_cons, hrs, List.append_assoc]
    · rw [if_neg hrs]
      simp [List.filter_cons, hrs]

/-- The products map of a catalog: the entry at a slug is the product built
from the first record carrying that slug, if any. -/
theorem group_products_lookup {V : Type} (e : V) (loads : String → Option V)
    (rs : List OfferRecord) (s : String) :
    alookup (group_by_product e loads rs).1 s =
      (rs.find? (fun r => decide (r.product_slug = s))).map (mkProduct e loads) := by
  rw [group_by_product, foldl_step_products]
  rfl

/-- The offers map of a catalog: the list at a slug is one offer per record
carrying that slug, in input order. -/
theorem group_offers_lookup {V : Type} (e : V) (loads : String → Option V)
    (rs : List OfferRecord) (s : String) :
    (alookup (group_by_product e loads rs).2 s).getD [] =
      (rs.filter (fun r => decide (r.product_slug = s))).map mkOffer := by
  rw [group_by_product, foldl_step_offers]
  rfl

theorem min_offer_unfold (o x : Offer) (t : List Offer) :
    min_offer o (x :: t) = min_offer (if x.total < o.total then x else o) t := rfl

theorem min_offer_mem : ∀ (t : List Offer) (o : Offer), min_offer o t ∈ o :: t := by
  intro t
  induction t with
  | nil => intro o; simp [min_offer]
  | cons x t ih =>
    intro o
    rw [min_offer_unfold]
    by_cases hx : x.total < o.total
    · rw [if_pos hx]
      rcases List.mem_cons.mp (ih x) with h1 | h1
    
      · rw [h1]; exact List.mem_cons_of_mem o (List.mem_cons_self x t)
      · exact List.mem_cons_of_mem o (List.mem_cons_of_mem x h1)
    · rw [if_neg hx]
      rcases List.mem_cons.mp (ih o) with h1 | h1
      · rw [h1]; exact List.mem_cons_self o (x :: t)
      · exact List.mem_cons_of_mem o (List.mem_cons_of_mem x h1)

theorem min_offer_le : ∀ (t : List Offer) (o : Offer),
    ∀ x ∈ o :: t, (min_offer o t).total ≤ x.total := by
  intro t
  induction t with
  | nil =>
    intro o x hx
    rcases List.mem_cons.mp hx with h | h
    · rw [h]; simp [min_offer]
    · simp at h
  | cons y t ih =>
    intro o x hx
    rw [min_offer_unfold]
    have ho2le : (if y.total < o.total then y else o).total ≤ o.total
        ∧ (if y.total < o.total then y else o).total ≤ y.total := by
      by_cases hy : y.total < o.total
      · rw [if_pos hy]; exact ⟨le_of_lt hy, le_refl _⟩
      · rw [if_neg hy]; exact ⟨le_refl _, le_of_not_lt hy⟩
    have hhead := ih (if y.total < o.total then y else o) _
      (List.mem_cons_self (if y.total < o.total then y else o) t)
    rcases List.mem_cons.mp hx with h | h
    · rw [h]; exact le_trans hhead ho2le.1
    · rcases List.mem_cons.mp h with h2 | h2
      · rw [h2]; exact le_trans hhead ho2le.2
      · exact ih (if y.total < o.total then y else o) x
          (List.mem_cons_of_mem _ h2)

theorem min_offer_first : ∀ (t : List Offer) (o : Offer),
    (o :: t).find? (fun x => decide (x.total = (min_offer o t).total))
      = some (min_offer o t) := by
  intro t
  induction t with
  | nil =>
    intro o
    simp [min_offer, List.find?_cons]
  | cons y t ih =>
    intro o
    rw [min_offer_unfold]
    by_cases hy : y.total < o.total
    · rw [if_pos hy]
      have hm : (min_offer y t).total ≤ y.total :=
        min_offer_le t y y (List.mem_cons_self y t)
      have hno : ¬ (o.total = (min_offer y t).total) := by
        intro h
        exact absurd hy (not_lt.mpr (h ▸ hm))
      have hd : decide (o.total = (min_offer y t).total) = false :=
        decide_eq_false hno
      simp only [List.find?_cons, hd]
      exact ih y
    · rw [if_neg hy]
      have hmo : (min_offer o t).total ≤ o.total :=
        min_offer_le t o o (List.mem_cons_self o t)
      have hoy : o.total ≤ y.total := le_of_not_lt hy
      by_cases ho : o.total = (min_offer o t).total
      · have hd : decide (o.total = (min_offer o t).total) = true := decide_eq_true ho
        have h1 : (o :: t).find? (fun x => decide (x.total = (min_offer o t).total))
            = some o := by simp only [List.find?_cons, hd]
        have hom : o = min_offer o t := Option.some.inj (h1.symm.trans (ih o))
        rw [← hom]
        simp [List.find?_cons]
      · have hd : decide (o.total = (min_offer o t).total) = false := decide_eq_false ho
        have ht : t.find? (fun x => decide (x.total = (min_offer o t).total))
            = some (min_offer o t) := by
          have h2 := ih o
          simp only [List.find?_cons, hd] at h2
          exact h2
        have hyno : ¬ (y.total = (min_offer o t).total) := by
          intro h
          exact ho (le_antisymm (by rw [← h]; exact hoy) hmo)
        have hdy : decide (y.total = (min_offer o t).total) = false := decide_eq_false hyno
        simp only [List.find?_cons, hd, hdy]
        exact ht

theorem maxTotal_unfold (q x : ℚ) (ts : List ℚ) :
    maxTotal q (x :: ts) = maxTotal (if q < x then x else q) ts := rfl

theorem maxTotal_mem : ∀ (ts : List ℚ) (q : ℚ),
    maxTotal q ts = q ∨ maxTotal q ts ∈ ts := by
  intro ts
  induction ts with
  | nil => intro q; exact Or.inl rfl
  | cons x ts ih =>
    intro q
    rw [maxTotal_unfold]
    by_cases hx : q < x
    · rw [if_pos hx]
      rcases ih x with h | h
      · exact Or.inr (by rw [h]; exact List.mem_cons_self x ts)
      · exact Or.inr (List.mem_cons_of_mem x h)
    · rw [if_neg hx]
      rcases ih q with h | h
      · exact Or.inl h
      · exact Or.inr (List.mem_cons_of_mem x h)

theorem maxTotal_ge : ∀ (ts : List ℚ) (q : ℚ),
    q ≤ maxTotal q ts ∧ ∀ x ∈ ts, x ≤ maxTotal q ts := by
  intro ts
  induction ts with
  | nil => intro q; exact ⟨le_refl q, by simp⟩
  | cons x ts ih =>
    intro q
    rw [maxTotal_unfold]
    have hq : q ≤ (if q < x then x else q) ∧ x ≤ (if q < x then x else q) := by
      by_cases hx : q < x
      · rw [if_pos hx]; exact ⟨le_of_lt hx, le_refl x⟩
      · rw [if_neg hx]; exact ⟨le_refl q, le_of_not_lt hx⟩
    refine ⟨le_trans hq.1 (ih _).1, ?_⟩
    intro y hy
    rcases List.mem_cons.mp hy with h | h
    · rw [h]; exact le_trans hq.2 (ih _).1
    · exact (ih _).2 y h

/-- C1, amended: the explicit slug (trimmed) wins; otherwise the
brand/model branch applies whenever the whitespace-trimmed concatenation
`brand + " " + model` is non-empty — that is, when AT LEAST ONE of brand
and model is present, not only when both are — and the slug is `slugify`
of that trimmed concatenation; only when both brand and model are blank is
`slugify(productName)` used; when the product name is blank too, the slug
is the fixed fallback token. -/
theorem claim_c1_amended : ∀ r : RawRow,
    (pyStripStr r.product_slug ≠ "" → identitySlug r = pyStripStr r.product_slug)
    ∧ (pyStripStr r.product_slug = "" → pyStripStr (r.brand ++ " " ++ r.model) ≠ "" →
        identitySlug r = slugify (pyStripStr (r.brand ++ " " ++ r.model)))
    ∧ (pyStripStr r.product_slug = "" → pyStripStr (r.brand ++ " " ++ r.model) = "" →
        identitySlug r = slugify r.product_name)
    ∧ (pyStripStr r.product_slug = "" → pyStripStr (r.brand ++ " " ++ r.model) = "" →
        r.product_name = "" → identitySlug r = "product") := by
  intro r
  refine ⟨?_, ?_, ?_, ?_⟩
  · intro h
    simp only [identitySlug]
    rw [if_pos h]
  · intro h1 h2
    simp only [identitySlug]
    rw [if_neg (by simp [h1]), if_pos h2]
  · intro h1 h2
    simp only [identitySlug]
    rw [if_neg (by simp [h1]), if_neg (by simp [h2])]
  · intro h1 h2 h3
    simp only [identitySlug]
    rw [if_neg (by simp [h1]), if_neg (by simp [h2]), h3]
    decide

/-- C1, counterexample to the claim as stated: for a row with a brand, no
model, no explicit slug and a product name, the code slugs the brand alone
(`"bosch"`), while the claimed precedence prescribes `slugify(productName)`
(`"drill"`). -/
theorem claim_c1_cex :
    identitySlug rowBrandOnly = "bosch"
    ∧ specSlugC1 rowBrandOnly = "drill"
    ∧ identitySlug rowBrandOnly ≠ specSlugC1 rowBrandOnly := by decide

/-- C1, witness: the amended theorem applied to a row with an explicit
slug. -/
theorem claim_c1_witness :
    pyStripStr rowExplicitSlug.product_slug ≠ ""
    ∧ identitySlug rowExplicitSlug = pyStripStr rowExplicitSlug.product_slug :=
  ⟨by decide, (claim_c1_amended rowExplicitSlug).1 (by decide)⟩

/-- C2: a raw row with an empty url, an empty merchant, or a parsed price
at most 0 fails the acceptance test and contributes nothing to the
normalized sequence (hence to any catalog built from it); conversely every
produced record has non-empty slug, merchant and url and a positive
price. -/
theorem claim_c2 : ∀ (now : String) (r : RawRow) (rows : List RawRow),
    ((r.url = "" ∨ r.merchant = "" ∨ to_float r.price ≤ 0) →
      keepB (mkItem now r) = false
      ∧ normalize_rows now (r :: rows) = normalize_rows now rows)
    ∧ (∀ it ∈ normalize_rows now rows,
        it.product_slug ≠ "" ∧ it.merchant ≠ "" ∧ it.url ≠ "" ∧ 0 < it.price) := by
  intro now r rows
  constructor
  · intro h
    have hk : keepB (mkItem now r) = false := by
      rcases h with h | h | h
      · have hu : (mkItem now r).url = "" := by
          show pyStripStr r.url = ""
          rw [h]
          rfl
        simp [keepB, hu]
      · have hm : (mkItem now r).merchant = "" := by
          show pyStripStr r.merchant = ""
          rw [h]
          rfl
        simp [keepB, hm]
      · have hp : decide (0 < (mkItem now r).price) = false :=
          decide_eq_false (not_lt.mpr h)
        simp [keepB, hp]
    refine ⟨hk, ?_⟩
    rw [normalize_rows_eq, normalize_rows_eq]
    simp [List.filter_cons, hk]
  · intro it hit
    rw [normalize_rows_eq] at hit
    have hk := (List.mem_filter.mp hit).2
    simp only [keepB, Bool.and_eq_true, bne_iff_ne, ne_eq, decide_eq_true_eq] at hk
    exact ⟨hk.1.1.1, hk.1.1.2, hk.2, hk.1.2⟩

/-- C2, witness: the theorem applied to a row without a url. -/
theorem claim_c2_witness :
    keepB (mkItem "t0" rowNoUrl) = false
    ∧ normalize_rows "t0" [rowNoUrl] = normalize_rows "t0" [] :=
  (claim_c2 "t0" rowNoUrl []).1 (Or.inl rfl)

/-- C3: in the catalog built from a sequence of validated records, the
product stored under a slug is built (all descriptive fields: category,
name, brand, model, gtin, mpn, specs) from the FIRST record with that slug,
records with an already-seen slug never overwrite it, and the offer list
under a slug holds exactly one offer per record with that slug, in input
order. -/
theorem claim_c3 : ∀ (V : Type) (e : V) (loads : String → Option V)
    (rs : List OfferRecord) (s : String),
    alookup (group_by_product e loads rs).1 s =
      (rs.find? (fun r => decide (r.product_slug = s))).map (mkProduct e loads)
    ∧ (alookup (group_by_product e loads rs).2 s).getD [] =
      (rs.filter (fun r => decide (r.product_slug = s))).map mkOffer :=
  fun _ e loads rs s =>
    ⟨group_products_lookup e loads rs s, group_offers_lookup e loads rs s⟩

/-- C4: for a non-empty offer list the Aggregator returns the minimum total
as `lowTotal`, the maximum total as `highTotal`, the length as
`offerCount`, and as `cheapestOffer` the FIRST offer attaining the minimum
total (`find?` returns the earliest match); on the spec's example totals
[120.50, 99.99, 99.99] it returns lowTotal 99.99, highTotal 120.50,
offerCount 3 and the first of the two tied offers. -/
theorem claim_c4 :
    (∀ (os : List Offer), os ≠ [] →
      ∃ a, aggregate os = some a
        ∧ a.lowTotal ∈ os.map Offer.total
        ∧ (∀ q ∈ os.map Offer.total, a.lowTotal ≤ q)
        ∧ a.highTotal ∈ os.map Offer.total
        ∧ (∀ q ∈ os.map Offer.total, q ≤ a.highTotal)
        ∧ a.offerCount = os.length
        ∧ a.cheapestOffer.total = a.lowTotal
        ∧ os.find? (fun o => decide (o.total = a.lowTotal)) = some a.cheapestOffer)
    ∧ aggregate [offerA, offerB, offerC]
        = some { cheapestOffer := offerB, lowTotal := 99.99,
                 highTotal := 120.50, offerCount := 3 } := by
  constructor
  · intro os hne
    match os with
    | [] => exact absurd rfl hne
    | o :: t =>
      refine ⟨_, rfl, ?_, ?_, ?_, ?_, rfl, rfl, ?_⟩
      · exact List.mem_map_of_mem Offer.total (min_offer_mem t o)
      · intro q hq
        obtain ⟨x, hx, hxe⟩ := List.mem_map.mp hq
        rw [← hxe]
        exact min_offer_le t o x hx
      · simp only [List.map_cons]
        rcases maxTotal_mem (t.map Offer.total) o.total with h | h
        · rw [h]; exact List.mem_cons_self _ _
        · exact List.mem_cons_of_mem _ h
      · intro q hq
        simp only [List.map_cons, List.mem_cons] at hq
        rcases hq with h | h
        · rw [h]; exact (maxTotal_ge (t.map Offer.total) o.total).1
        · exact (maxTotal_ge (t.map Offer.total) o.total).2 q h
      · exact min_offer_first t o
  · rw [show (99.99 : ℚ) = mkRat 9999 100 from by rw [Rat.mkRat_eq_div]; norm_num,
      show (120.50 : ℚ) = mkRat 241 2 from by rw [Rat.mkRat_eq_div]; norm_num]
    decide

/-- C4, witness: the universal part applied to the example offer list. -/
theorem claim_c4_witness :
    ∃ a, aggregate [offerA, offerB, offerC] = some a
      ∧ a.lowTotal ∈ [offerA, offerB, offerC].map Offer.total
      ∧ (∀ q ∈ [offerA, offerB, offerC].map Offer.total, a.lowTotal ≤ q)
      ∧ a.highTotal ∈ [offerA, offerB, offerC].map Offer.total
      ∧ (∀ q ∈ [offerA, offerB, offerC].map Offer.total, q ≤ a.highTotal)
      ∧ a.offerCount = [offerA, offerB, offerC].length
      ∧ a.cheapestOffer.total = a.lowTotal
      ∧ [offerA, offerB, offerC].find? (fun o => decide (o.total = a.lowTotal))
          = some a.cheapestOffer :=
  claim_c4.1 [offerA, offerB, offerC] (by decide)

/-- C5: reconciliation is deterministic — on equal ordered input sequences
`group_by_product` returns equal catalogs (same slugs, same product
fields, same offer lists in the same order); the embedding is a pure
function of the record sequence, so equal runs agree definitionally. -/
theorem claim_c5 : ∀ (V : Type) (e : V) (loads : String → Option V)
    (rs1 rs2 : List OfferRecord), rs1 = rs2 →
    group_by_product e loads rs1 = group_by_product e loads rs2 := by
  intro V e loads rs1 rs2 h
  rw [h]

/-- C5, witness: two runs on the same one-record sequence. -/
theorem claim_c5_witness :
    group_by_product ([] : List (String × String)) loadsNone [mkItem "t0" rowS1]
      = group_by_product ([] : List (String × String)) loadsNone [mkItem "t0" rowS1] :=
  claim_c5 _ [] loadsNone [mkItem "t0" rowS1] [mkItem "t0" rowS1] rfl

/-- C6: `slugify` is idempotent and pure (equal inputs give equal outputs),
and the spec's example inputs "Bosch Ø10" and "bosch  ø10" both normalize
to "bosch-10": identical results apart from the stripped non-ASCII
character. -/
theorem claim_c6 :
    (∀ x : String, slugify (slugify x) = slugify x)
    ∧ (∀ x y : String, x = y → slugify x = slugify y)
    ∧ slugify "Bosch Ø10" = "bosch-10"
    ∧ slugify "bosch  ø10" = "bosch-10" := by
  refine ⟨slugify_idem, ?_, by decide, by decide⟩
  intro x y h
  rw [h]

/-- C6, witness: idempotence and purity applied at a concrete input. -/
theorem claim_c6_witness :
    slugify (slugify "Bosch Ø10") = slugify "Bosch Ø10"
    ∧ slugify "Bosch Ø10" = slugify "Bosch Ø10" :=
  ⟨claim_c6.1 "Bosch Ø10", claim_c6.2.1 "Bosch Ø10" "Bosch Ø10" rfl⟩

/-- C7, amended: whether a row is kept is independent of its spec payload
(a malformed payload never drops the row), and when the payload fails to
parse (`loads` returns `none`) the product created from the record carries
the empty mapping. Only parse FAILURE degrades to the empty mapping: a
payload that parses to a non-mapping JSON value is stored as parsed. -/
theorem claim_c7_amended : ∀ (V : Type) (e : V) (loads : String → Option V)
    (now : String) (r : RawRow) (s2 : String),
    keepB (mkItem now { r with specs_json := s2 }) = keepB (mkItem now r)
    ∧ (loads ((mkItem now r).specs_json) = none →
        (mkProduct e loads (mkItem now r)).specs = e) := by
  intro V e loads now r s2
  constructor
  · rfl
  · intro h
    show (if (mkItem now r).specs_json = "" then e
          else (loads ((mkItem now r).specs_json)).getD e) = e
    by_cases hs : (mkItem now r).specs_json = ""
    · rw [if_pos hs]
    · rw [if_neg hs, h]
      rfl

/-- C7, counterexample to the claim as stated: the payload `[1, 2]` is not
parseable as a key→value mapping (it is a JSON array), the row is kept,
yet the product's specs is the parsed array, NOT the empty mapping. -/
theorem claim_c7_cex :
    keepB (mkItem "t0" rowSpecArr) = true
    ∧ (mkProduct (SpecData.obj []) loadsArr (mkItem "t0" rowSpecArr)).specs
        = SpecData.arr [1, 2]
    ∧ SpecData.arr [1, 2] ≠ SpecData.obj [] := by decide

/-- C7, witness: the amended theorem applied to a row whose payload fails
to parse. -/
theorem claim_c7_witness :
    keepB (mkItem "t0" { rowSpecBad with specs_json := "x" })
      = keepB (mkItem "t0" rowSpecBad)
    ∧ (mkProduct (SpecData.obj []) loadsArr (mkItem "t0" rowSpecBad)).specs
        = SpecData.obj [] :=
  ⟨(claim_c7_amended SpecData (SpecData.obj []) loadsArr "t0" rowSpecBad "x").1,
   (claim_c7_amended SpecData (SpecData.obj []) loadsArr "t0" rowSpecBad "x").2
     (by decide)⟩

/-- C8, amended: malformed numeric text in price or shipping normalizes to
0 and never raises; every produced record has price > 0 and a shipping
equal to `to_float` of some input row's shipping text — but shipping is
not sign-checked, so text parsing to a negative number yields a negative
shipping on a produced record. -/
theorem claim_c8_amended : ∀ (now : String) (r : RawRow) (rows : List RawRow),
    (toFloatCore? r.price = none → (mkItem now r).price = 0)
    ∧ (toFloatCore? r.shipping = none → (mkItem now r).shipping = 0)
    ∧ (∀ it ∈ normalize_rows now rows, 0 < it.price)
    ∧ (∀ it ∈ normalize_rows now rows,
        ∃ r2 ∈ rows, it.shipping = to_float r2.shipping) := by
  intro now r rows
  refine ⟨?_, ?_, ?_, ?_⟩
  · intro h
    show to_float r.price = 0
    rw [to_float, h]
    rfl
  · intro h
    show to_float r.shipping = 0
    rw [to_float, h]
    rfl
  · intro it hit
    rw [normalize_rows_eq] at hit
    have hk := (List.mem_filter.mp hit).2
    simp only [keepB, Bool.and_eq_true, decide_eq_true_eq] at hk
    exact hk.1.2
  · intro it hit
    rw [normalize_rows_eq] at hit
    obtain ⟨r2, hr2, heq⟩ := List.mem_map.mp (List.mem_filter.mp hit).1
    refine ⟨r2, hr2, ?_⟩
    rw [← heq]
    rfl

/-- C8, counterexample to the claim as stated: the row with shipping text
"-5" is produced by normalize (price 10 > 0) and its shipping is negative,
violating "price and shipping are non-negative". -/
theorem claim_c8_cex :
    (mkItem "t0" rowNegShip).shipping < 0
    ∧ keepB (mkItem "t0" rowNegShip) = true
    ∧ normalize_rows "t0" [rowNegShip] = [mkItem "t0" rowNegShip] := by decide

/-- C8, witness: the amended theorem applied to a row with non-numeric
price and shipping text. -/
theorem claim_c8_witness :
    (mkItem "t0" rowBadPrice).price = 0
    ∧ (mkItem "t0" rowBadPrice).shipping = 0 :=
  ⟨(claim_c8_amended "t0" rowBadPrice []).1 (by decide),
   (claim_c8_amended "t0" rowBadPrice []).2.1 (by decide)⟩

/-- C9: every product present in a catalog has at least one offer, so the
Aggregator's empty-offer-set failure is unreachable for catalog
products. -/
theorem claim_c9 : ∀ (V : Type) (e : V) (loads : String → Option V)
    (rs : List OfferRecord) (s : String) (pr : Product V),
    alookup (group_by_product e loads rs).1 s = some pr →
    (alookup (group_by_product e loads rs).2 s).getD [] ≠ [] := by
  intro V e loads rs s pr h
  rw [group_products_lookup] at h
  rw [group_offers_lookup]
  cases hf : rs.find? (fun r => decide (r.product_slug = s)) with
  | none => rw [hf] at h; simp at h
  | some r =>
    have hmem : r ∈ rs := List.mem_of_find?_eq_some hf
    have hpr := List.find?_some hf
    have hin : r ∈ rs.filter (fun r2 => decide (r2.product_slug = s)) :=
      List.mem_filter.mpr ⟨hmem, hpr⟩
    intro hmap
    exact List.ne_nil_of_mem hin (List.map_eq_nil_iff.mp hmap)

/-- C9, witness: the theorem applied to the one-record catalog. -/
theorem claim_c9_witness :
    (alookup (group_by_product ([] : List (String × String)) loadsNone
        [mkItem "t0" rowS1]).2 "s1").getD [] ≠ [] :=
  claim_c9 _ [] loadsNone [mkItem "t0" rowS1] "s1"
    (mkProduct [] loadsNone (mkItem "t0" rowS1)) (by decide)

/-- C10: the pipeline preserves input order — the normalized sequence is
the order-preserving filter of the per-row items, and the catalog's offer
list at each slug is exactly one offer per accepted row with that slug, in
the same relative order as the input rows. -/
theorem claim_c10 : ∀ (now : String) (rows : List RawRow) (V : Type) (e : V)
    (loads : String → Option V) (s : String),
    normalize_rows now rows = (rows.map (mkItem now)).filter keepB
    ∧ (alookup (group_by_product e loads (normalize_rows now rows)).2 s).getD []
      = (((rows.map (mkItem now)).filter keepB).filter
          (fun it => decide (it.product_slug = s))).map mkOffer := by
  intro now rows V e loads s
  refine ⟨normalize_rows_eq now rows, ?_⟩
  rw [group_offers_lookup, normalize_rows_eq]
